import Mathlib

/-!
Verification development for the rolling historical VaR backtest implemented in
`src/quick_charts.py` (function `plot_var_breaches`).  Returns and quantile
probabilities are modelled as exact rationals; a missing value (NaN/NaT) in a
dataframe column is modelled as `none`; the `ValueError` raised by the
library's rolling-quantile validation is modelled as `Except.error`.
-/

/-- A raw input row: the two columns the backtest selects, each possibly
missing (`trade_date` may be NaT, `daily_return` may be NaN). -/
structure Row where
  trade_date : Option Int
  daily_return : Option ℚ
deriving DecidableEq

/-- An output row after the threshold column and breach flag are added and
rows with an undefined threshold are dropped. -/
structure OutRecord where
  trade_date : Int
  daily_return : ℚ
  var_threshold : ℚ
  is_breach : Bool
deriving DecidableEq

/-- The summary dictionary returned by `plot_var_breaches`. -/
structure Stats where
  days_tested : Nat
  breaches : Nat
  breach_pct : ℚ
  expected_breach_pct : ℚ
deriving DecidableEq

/-- `df[["trade_date", "daily_return"]].dropna()`: keep the rows where both
columns are present. -/
def dropna (rows : List Row) : List Row :=
  rows.filter fun r => r.trade_date.isSome && r.daily_return.isSome

/-- Extract the (date, return) pairs of the rows that survive `dropna`. -/
def validPairs (rows : List Row) : List (Int × ℚ) :=
  rows.filterMap fun r =>
    match r.trade_date, r.daily_return with
    | some t, some x => some (t, x)
    | _, _ => none

/-- `d.sort_values("trade_date")`: sort ascending by date (a comparison sort;
on inputs with unique dates any comparison sort agrees). -/
def sortByDate (l : List (Int × ℚ)) : List (Int × ℚ) :=
  l.insertionSort fun a b => a.1 ≤ b.1

/-- Mathematical ceiling on `ℚ`, executable (`⌈q⌉ = -⌊-q⌋`). -/
def qceil (q : ℚ) : ℤ :=
  -(Rat.floor (-q))

/-- Python's `round` to an integer: round half to even (banker's rounding). -/
def roundHalfEven (q : ℚ) : ℤ :=
  let f := Rat.floor q
  let r := q - (f : ℚ)
  if r < 1 / 2 then f
  else if 1 / 2 < r then f + 1
  else if f % 2 = 0 then f else f + 1

/-- Python's `round(q, 2)`. -/
def round2 (q : ℚ) : ℚ :=
  (roundHalfEven (q * 100) : ℚ) / 100

/-- The library's empirical quantile with linear interpolation (the default
`interpolation="linear"` of `Rolling.quantile`): sort the window values and
interpolate between the order statistics around `alpha * (n - 1)`. -/
def quantileLinear (alpha : ℚ) (vs : List ℚ) : ℚ :=
  let v := vs.insertionSort (· ≤ ·)
  let h : ℚ := alpha * ((vs.length : ℚ) - 1)
  let lo : ℤ := Rat.floor h
  let hi : ℤ := qceil h
  let vlo := v.getD lo.toNat 0
  let vhi := v.getD hi.toNat 0
  vlo + (h - (lo : ℚ)) * (vhi - vlo)

/-- The trailing window of (at most) `w` values ending at position `i`
inclusive. -/
def windowSlice (xs : List ℚ) (w i : Nat) : List ℚ :=
  (xs.take (i + 1)).drop (i + 1 - w)

/-- `series.rolling(w).quantile(alpha)`: position `i` holds the quantile of
the trailing `w` values when a full window exists (`min_periods` defaults to
the window size, and a width-0 window has no values to aggregate, giving NaN),
and NaN (`none`) otherwise. -/
def rollingQuantile (w : Nat) (alpha : ℚ) (xs : List ℚ) : List (Option ℚ) :=
  (List.range xs.length).map fun i =>
    if 1 ≤ w ∧ w ≤ i + 1 then some (quantileLinear alpha (windowSlice xs w i))
    else none

/-- Row constructor used when the threshold column is joined back onto the
frame: rows whose threshold is NaN are dropped, the rest get the strict
`daily_return < var_threshold` breach flag. -/
def toRec (p : (Int × ℚ) × Option ℚ) : Option OutRecord :=
  match p.2 with
  | some th => some ⟨p.1.1, p.1.2, th, decide (p.1.2 < th)⟩
  | none => none

/-- The record sequence of `plot_var_breaches` after the rolling threshold is
computed and rows without a threshold are dropped. -/
def backtestRecs (d : List (Int × ℚ)) (w : Nat) (alpha : ℚ) : List OutRecord :=
  (d.zip (rollingQuantile w alpha (d.map Prod.snd))).filterMap toRec

/-- The core of `plot_var_breaches`, parametrised by the module constants
`WINDOW_VAR` and `ALPHA_VAR`: dropna, sort by date, rolling quantile, drop
undefined thresholds, strict-inequality breach flag, summary statistics.
`Rolling.quantile` raises `ValueError` for a probability outside `[0, 1]`,
modelled as `Except.error`. -/
def backtest (rows : List Row) (w : Nat) (alpha : ℚ) :
    Except String (List OutRecord × Stats) :=
  if alpha < 0 ∨ 1 < alpha then
    Except.error "quantile value not in [0, 1]"
  else
    let d := sortByDate (validPairs rows)
    let recs := backtestRecs d w alpha
    let days_tested := recs.length
    let breaches := (recs.filter fun r => r.is_breach).length
    let breach_pct : ℚ :=
      if days_tested ≠ 0 then 100 * (breaches : ℚ) / (days_tested : ℚ) else 0
    Except.ok (recs,
      { days_tested := days_tested
        breaches := breaches
        breach_pct := round2 breach_pct
        expected_breach_pct := 100 * alpha })

/-- Module constant `WINDOW_VAR = 250`. -/
def WINDOW_VAR : Nat := 250

/-- Module constant `ALPHA_VAR = 0.05`. -/
def ALPHA_VAR : ℚ := 5 / 100

/-- `plot_var_breaches` itself: the backtest at the module constants. -/
def plot_var_breaches (df : List Row) : Except String (List OutRecord × Stats) :=
  backtest df WINDOW_VAR ALPHA_VAR

/-- The spec's own quantile formula, stated on an already sorted list of
window values: `v[floor h] + (h - floor h) * (v[ceil h] - v[floor h])` with
`h = alpha * (window - 1)`. -/
def specQuantile (alpha : ℚ) (v : List ℚ) : ℚ :=
  let h : ℚ := alpha * ((v.length : ℚ) - 1)
  let vlo := v.getD (Rat.floor h).toNat 0
  let vhi := v.getD (qceil h).toNat 0
  vlo + (h - ((Rat.floor h : ℤ) : ℚ)) * (vhi - vlo)

theorem ratFloor_eq (q : ℚ) : Rat.floor q = ⌊q⌋ :=
  (Rat.floor_def' q).trans Rat.floor_def.symm

theorem qceil_eq (q : ℚ) : qceil q = ⌈q⌉ := by
  unfold qceil
  rw [ratFloor_eq, Int.floor_neg, neg_neg]

/-- The output record the pipeline produces at absolute position `i` of the
sorted valid-row sequence (for positions with a full window). -/
def recAt (d : List (Int × ℚ)) (w : Nat) (alpha : ℚ) (i : Nat) : OutRecord :=
  let row := d.getD i (0, 0)
  let th := quantileLinear alpha (windowSlice (d.map Prod.snd) w i)
  ⟨row.1, row.2, th, decide (row.2 < th)⟩

/-- Closed positional form of the record sequence: one record per position
`j + (w - 1)` for `j < length - (w - 1)`. -/
def recsClosed (d : List (Int × ℚ)) (w : Nat) (alpha : ℚ) : List OutRecord :=
  (List.range (d.length - (w - 1))).map fun j => recAt d w alpha (j + (w - 1))

theorem filterMap_eq_map_of_some {α β : Type} (g : α → Option β) (f : α → β)
    (l : List α) (h : ∀ a ∈ l, g a = some (f a)) : l.filterMap g = l.map f := by
  induction l with
  | nil => rfl
  | cons a l ih =>
      simp only [List.filterMap_cons, h a (List.mem_cons_self a l), List.map_cons]
      rw [ih fun x hx => h x (List.mem_cons_of_mem a hx)]

/-- Pair-to-record map used in the full-window region. -/
def pairRec (p : (Int × ℚ) × Option ℚ) : OutRecord :=
  ⟨p.1.1, p.1.2, p.2.getD 0, decide (p.1.2 < p.2.getD 0)⟩

theorem zip_range_filterMap {A B C : Type} (d : List A) (F : Nat → Option B)
    (g : A → B → C) (k : Nat) (a0 : A) (b0 : B)
    (hF : ∀ i, (F i).isSome = true ↔ k ≤ i) :
    (d.zip ((List.range d.length).map F)).filterMap (fun p => p.2.map (g p.1)) =
    (List.range (d.length - k)).map
      (fun j => g (d.getD (j + k) a0) ((F (j + k)).getD b0)) := by
  rcases Nat.le_total d.length k with hnk | hkn
  · -- every position is below `k`: both sides are empty
    have h1 : (d.zip ((List.range d.length).map F)).filterMap
        (fun p => p.2.map (g p.1)) = [] := by
      rw [List.filterMap_eq_nil_iff]
      intro p hp
      obtain ⟨i, hi, hfi⟩ := List.mem_map.mp (List.of_mem_zip hp).2
      rw [List.mem_range] at hi
      have hnone : p.2 = none := by
        rw [← hfi]
        rw [← Option.not_isSome_iff_eq_none, hF]
        omega
      rw [hnone, Option.map_none']
    rw [h1, Nat.sub_eq_zero_of_le hnk]
    rfl
  · -- split the index range at `k`
    have hsplit : List.range d.length =
        List.range k ++ (List.range (d.length - k)).map (k + ·) := by
      rw [← List.range_add, Nat.add_sub_cancel' hkn]
    nth_rewrite 1 [hsplit]
    rw [List.map_append, ← List.take_append_drop k d,
      List.zip_append (by simp [hkn]), List.filterMap_append,
      List.take_append_drop]
    have h1 : ((d.take k).zip ((List.range k).map F)).filterMap
        (fun p => p.2.map (g p.1)) = [] := by
      rw [List.filterMap_eq_nil_iff]
      intro p hp
      obtain ⟨i, hi, hfi⟩ := List.mem_map.mp (List.of_mem_zip hp).2
      rw [List.mem_range] at hi
      have hnone : p.2 = none := by
        rw [← hfi]
        rw [← Option.not_isSome_iff_eq_none, hF]
        omega
      rw [hnone, Option.map_none']
    rw [h1, List.nil_append, List.map_map]
    have h2 : ∀ p ∈ (d.drop k).zip ((List.range (d.length - k)).map (F ∘ (k + ·))),
        p.2.map (g p.1) = some (g p.1 (p.2.getD b0)) := by
      intro p hp
      obtain ⟨j, hj, hfj⟩ := List.mem_map.mp (List.of_mem_zip hp).2
      have hsome : (p.2).isSome = true := by
        rw [← hfj]
        simp only [Function.comp_apply, hF]
        omega
      obtain ⟨b, hb⟩ := Option.isSome_iff_exists.mp hsome
      rw [hb, Option.map_some', Option.getD_some]
    rw [filterMap_eq_map_of_some _ _ _ h2]
    apply List.ext_getElem
    · simp [Nat.min_self]
    · intro j hj1 hj2
      have hjlt : j < d.length - k := by
        simpa [Nat.min_self] using hj1
      have hjk : j + k < d.length := by omega
      simp only [List.getElem_map, List.getElem_zip, List.getElem_drop,
        List.getElem_range, Function.comp_apply]
      have hkj : k + j < d.length := by omega
      rw [← List.getD_eq_getElem _ a0 hkj]
      have hcomm : k + j = j + k := Nat.add_comm k j
      rw [hcomm]

theorem toRec_eq_map (p : (Int × ℚ) × Option ℚ) :
    toRec p = p.2.map fun th =>
      (⟨p.1.1, p.1.2, th, decide (p.1.2 < th)⟩ : OutRecord) := by
  cases hp : p.2 <;> simp [toRec, hp]

theorem backtestRecs_eq_closed (d : List (Int × ℚ)) (w : Nat) (alpha : ℚ)
    (hw : 1 ≤ w) : backtestRecs d w alpha = recsClosed d w alpha := by
  unfold backtestRecs recsClosed rollingQuantile
  rw [List.length_map]
  have htoRec : (toRec : (Int × ℚ) × Option ℚ → Option OutRecord) =
      fun p => p.2.map fun th =>
        (⟨p.1.1, p.1.2, th, decide (p.1.2 < th)⟩ : OutRecord) := by
    funext p
    exact toRec_eq_map p
  rw [htoRec]
  rw [zip_range_filterMap d
    (fun i => if 1 ≤ w ∧ w ≤ i + 1 then
      some (quantileLinear alpha (windowSlice (d.map Prod.snd) w i)) else none)
    (fun a th => (⟨a.1, a.2, th, decide (a.2 < th)⟩ : OutRecord))
    (w - 1) (0, 0) 0
    (by
      intro i
      by_cases h : 1 ≤ w ∧ w ≤ i + 1
      · simp [h]
      · simpa [h] using (by omega : ¬ (w - 1 ≤ i)))]
  apply List.map_congr_left
  intro j hj
  have hcond : 1 ≤ w ∧ w ≤ (j + (w - 1)) + 1 := by omega
  rw [if_pos hcond, Option.getD_some]
  rfl

theorem quantileLinear_eq_spec (alpha : ℚ) (vs : List ℚ) :
    quantileLinear alpha vs = specQuantile alpha (vs.insertionSort (· ≤ ·)) := by
  simp only [quantileLinear, specQuantile, List.length_insertionSort]

theorem roundHalfEven_ge_floor (q : ℚ) : ⌊q⌋ ≤ roundHalfEven q := by
  unfold roundHalfEven
  rw [ratFloor_eq]
  dsimp only
  split_ifs <;> omega

theorem roundHalfEven_le_ceil (q : ℚ) : roundHalfEven q ≤ ⌈q⌉ := by
  unfold roundHalfEven
  rw [ratFloor_eq]
  have hfc : ⌊q⌋ ≤ ⌈q⌉ := Int.floor_le_ceil q
  have hlt : (1 : ℚ) / 2 < q - (⌊q⌋ : ℚ) → ⌊q⌋ + 1 ≤ ⌈q⌉ := by
    intro hr
    rw [Int.add_one_le_iff, Int.lt_ceil]
    have := Int.floor_le q
    linarith
  have heq : q - (⌊q⌋ : ℚ) = 1 / 2 → ⌊q⌋ + 1 ≤ ⌈q⌉ := by
    intro hr
    rw [Int.add_one_le_iff, Int.lt_ceil]
    linarith
  dsimp only
  split_ifs with h1 h2 h3
  · exact hfc
  · exact hlt h2
  · exact hfc
  · exact heq (by linarith)

theorem round2_nonneg (q : ℚ) (hq : 0 ≤ q) : 0 ≤ round2 q := by
  unfold round2
  have h1 : (0 : ℤ) ≤ ⌊q * 100⌋ := Int.floor_nonneg.mpr (by linarith)
  have h2 : (0 : ℤ) ≤ roundHalfEven (q * 100) :=
    le_trans h1 (roundHalfEven_ge_floor (q * 100))
  have h3 : (0 : ℚ) ≤ (roundHalfEven (q * 100) : ℚ) := by exact_mod_cast h2
  linarith

theorem round2_le_100 (q : ℚ) (hq : q ≤ 100) : round2 q ≤ 100 := by
  unfold round2
  have h1 : (⌈q * 100⌉ : ℤ) ≤ 10000 := Int.ceil_le.mpr (by push_cast; linarith)
  have h2 : roundHalfEven (q * 100) ≤ 10000 :=
    le_trans (roundHalfEven_le_ceil (q * 100)) h1
  have h3 : (roundHalfEven (q * 100) : ℚ) ≤ 10000 := by exact_mod_cast h2
  linarith

theorem round2_zero : round2 0 = 0 := by
  norm_num [round2, roundHalfEven, ratFloor_eq]

theorem backtest_ok_elim {rows : List Row} {w : Nat} {alpha : ℚ}
    {recs : List OutRecord} {stats : Stats}
    (h : backtest rows w alpha = Except.ok (recs, stats)) :
    recs = backtestRecs (sortByDate (validPairs rows)) w alpha ∧
    stats.days_tested = recs.length ∧
    stats.breaches = (recs.filter fun r => r.is_breach).length ∧
    stats.breach_pct = round2 (if recs.length ≠ 0 then
      100 * (((recs.filter fun r => r.is_breach).length : ℚ)) / (recs.length : ℚ)
      else 0) ∧
    stats.expected_breach_pct = 100 * alpha := by
  by_cases hα : alpha < 0 ∨ 1 < alpha
  · rw [backtest, if_pos hα] at h
    exact absurd h (by simp)
  · rw [backtest, if_neg hα] at h
    simp only [Except.ok.injEq, Prod.mk.injEq] at h
    obtain ⟨h1, h2⟩ := h
    subst h1
    subst h2
    exact ⟨rfl, rfl, rfl, rfl, rfl⟩

theorem backtest_ok_of_valid (rows : List Row) (w : Nat) (alpha : ℚ)
    (h0 : 0 ≤ alpha) (h1 : alpha ≤ 1) :
    (backtest rows w alpha).toOption.isSome = true := by
  have hα : ¬ (alpha < 0 ∨ 1 < alpha) := by
    rintro (h | h) <;> linarith
  rw [backtest, if_neg hα]
  rfl

/-- Concrete three-day input (the first three observations of the spec's
worked example): returns `0.01, -0.02, 0.005` on days `0, 1, 2`. -/
def rows3 : List Row :=
  [⟨some 0, some (1 / 100)⟩, ⟨some 1, some (-1 / 50)⟩, ⟨some 2, some (1 / 200)⟩]

theorem backtest_rows3_w3 :
    backtest rows3 3 (1 / 20) =
      Except.ok ([⟨2, 1 / 200, -(7 / 400), false⟩], ⟨1, 0, 0, 5⟩) := by
  have hα : ¬ ((1 / 20 : ℚ) < 0 ∨ 1 < (1 / 20 : ℚ)) := by norm_num
  have hf : (⌊(1 / 10 : ℚ)⌋ : ℤ) = 0 := by
    rw [Int.floor_eq_iff] <;> norm_num
  have hc : (⌈(1 / 10 : ℚ)⌉ : ℤ) = 1 := by
    rw [Int.ceil_eq_iff] <;> norm_num
  have hfr : Int.fract (1 / 10 : ℚ) = 1 / 10 :=
    Int.fract_eq_self.mpr ⟨by norm_num, by norm_num⟩
  rw [backtest, if_neg hα]
  norm_num [rows3, validPairs, sortByDate, List.insertionSort, List.orderedInsert,
    backtestRecs, rollingQuantile, windowSlice, quantileLinear, toRec,
    ratFloor_eq, qceil_eq, hf, hc, hfr, round2, roundHalfEven, List.range_succ,
    List.filterMap_cons, List.filter_cons, decide_eq_false_iff_not,
    decide_eq_true_eq]

theorem backtest_rows3_alpha0 :
    backtest rows3 3 0 =
      Except.ok ([⟨2, 1 / 200, -(1 / 50), false⟩], ⟨1, 0, 0, 0⟩) := by
  have hα : ¬ ((0 : ℚ) < 0 ∨ 1 < (0 : ℚ)) := by norm_num
  rw [backtest, if_neg hα]
  norm_num [rows3, validPairs, sortByDate, List.insertionSort, List.orderedInsert,
    backtestRecs, rollingQuantile, windowSlice, quantileLinear, toRec,
    ratFloor_eq, qceil_eq, round2, roundHalfEven, List.range_succ,
    List.filterMap_cons, List.filter_cons, decide_eq_false_iff_not,
    decide_eq_true_eq]

theorem backtest_rows3_w1 :
    backtest rows3 1 (1 / 20) =
      Except.ok ([⟨0, 1 / 100, 1 / 100, false⟩, ⟨1, -(1 / 50), -(1 / 50), false⟩,
        ⟨2, 1 / 200, 1 / 200, false⟩], ⟨3, 0, 0, 5⟩) := by
  have hα : ¬ ((1 / 20 : ℚ) < 0 ∨ 1 < (1 / 20 : ℚ)) := by norm_num
  rw [backtest, if_neg hα]
  norm_num [rows3, validPairs, sortByDate, List.insertionSort, List.orderedInsert,
    backtestRecs, rollingQuantile, windowSlice, quantileLinear, toRec,
    ratFloor_eq, qceil_eq, round2, roundHalfEven, List.range_succ,
    List.filterMap_cons, List.filter_cons, decide_eq_false_iff_not,
    decide_eq_true_eq]

/-- C1: for every position `i ≥ window - 1` in the return sequence, the
rolling VaR threshold at `i` is defined and equals the spec's empirical
quantile (linear interpolation between order statistics, at
`h = alpha * (window - 1)`) of the sorted trailing window of exactly `window`
consecutive returns ending at `i`; and on the window values
`[0.01, -0.02, 0.005]` with `window = 3`, `alpha = 0.05` the quantile is
`-0.0175`. -/
theorem C1_threshold_is_window_quantile (w : Nat) (alpha : ℚ) (xs : List ℚ)
    (i : Nat) (hw : 1 ≤ w) (hi : w - 1 ≤ i) (hn : i < xs.length) :
    (windowSlice xs w i).length = w ∧
    (rollingQuantile w alpha xs).getD i none =
      some (specQuantile alpha ((windowSlice xs w i).insertionSort (· ≤ ·))) ∧
    quantileLinear (5 / 100) [1 / 100, -1 / 50, 1 / 200] = -(7 / 400) := by
  refine ⟨?_, ?_, ?_⟩
  · simp only [windowSlice, List.length_drop, List.length_take]
    omega
  · unfold rollingQuantile
    rw [List.getD_eq_getElem _ none (by simpa using hn), List.getElem_map,
      List.getElem_range, if_pos ⟨hw, by omega⟩, quantileLinear_eq_spec]
  · have hf : (⌊(1 / 10 : ℚ)⌋ : ℤ) = 0 := by
      rw [Int.floor_eq_iff] <;> norm_num
    have hc : (⌈(1 / 10 : ℚ)⌉ : ℤ) = 1 := by
      rw [Int.ceil_eq_iff] <;> norm_num
    norm_num [quantileLinear, List.insertionSort, List.orderedInsert,
      ratFloor_eq, qceil_eq, hf, hc]

/-- C1 witness: the theorem applied to the spec's worked example
(`window = 3`, `alpha = 0.05`, position 2 of the return sequence). -/
theorem C1_threshold_is_window_quantile_witness :
    (windowSlice [1 / 100, -1 / 50, 1 / 200, -3 / 100, 1 / 100] 3 2).length = 3 ∧
    (rollingQuantile 3 (5 / 100)
        [1 / 100, -1 / 50, 1 / 200, -3 / 100, 1 / 100]).getD 2 none =
      some (specQuantile (5 / 100)
        ((windowSlice [1 / 100, -1 / 50, 1 / 200, -3 / 100, 1 / 100]
          3 2).insertionSort (· ≤ ·))) ∧
    quantileLinear (5 / 100) [1 / 100, -1 / 50, 1 / 200] = -(7 / 400) :=
  C1_threshold_is_window_quantile 3 (5 / 100)
    [1 / 100, -1 / 50, 1 / 200, -3 / 100, 1 / 100] 2
    (by norm_num) (by norm_num) (by norm_num)

/-- C2: in every output record, `is_breach` holds iff the day's return is
strictly below its VaR threshold (a return equal to the threshold is not a
breach). -/
theorem C2_breach_iff_strictly_below (rows : List Row) (w : Nat) (alpha : ℚ)
    (recs : List OutRecord) (stats : Stats)
    (h : backtest rows w alpha = Except.ok (recs, stats)) :
    ∀ r ∈ recs, (r.is_breach = true ↔ r.daily_return < r.var_threshold) := by
  obtain ⟨h1, -, -, -, -⟩ := backtest_ok_elim h
  subst h1
  intro r hr
  unfold backtestRecs at hr
  rw [List.mem_filterMap] at hr
  obtain ⟨p, -, hrec⟩ := hr
  rw [toRec_eq_map] at hrec
  cases hq : p.2 with
  | none =>
      rw [hq, Option.map_none'] at hrec
      exact absurd hrec (by simp)
  | some th =>
      rw [hq, Option.map_some'] at hrec
      have heq := Option.some.inj hrec
      subst heq
      simp [decide_eq_true_eq]

/-- C2 witness: the theorem applied to the three-day example at
`window = 3`, `alpha = 0.05`, instantiated at its single output record. -/
theorem C2_breach_iff_strictly_below_witness :
    ((⟨2, 1 / 200, -(7 / 400), false⟩ : OutRecord).is_breach = true ↔
      (⟨2, 1 / 200, -(7 / 400), false⟩ : OutRecord).daily_return <
        (⟨2, 1 / 200, -(7 / 400), false⟩ : OutRecord).var_threshold) :=
  C2_breach_iff_strictly_below rows3 3 (1 / 20) _ _ backtest_rows3_w3
    ⟨2, 1 / 200, -(7 / 400), false⟩ (by simp)

/-- C3: the summary is consistent with the record sequence: `days_tested` is
the record count, `breaches` counts the breach records (so
`breaches ≤ days_tested` and `0 ≤ breach_pct ≤ 100`), `breach_pct` is
`round(100 * breaches / days_tested, 2)` for a nonempty record sequence and
`0.0` otherwise, and `expected_breach_pct = 100 * alpha` unrounded. -/
theorem C3_summary_consistency (rows : List Row) (w : Nat) (alpha : ℚ)
    (recs : List OutRecord) (stats : Stats)
    (h : backtest rows w alpha = Except.ok (recs, stats)) :
    stats.days_tested = recs.length ∧
    stats.breaches = (recs.filter fun r => r.is_breach).length ∧
    stats.breaches ≤ stats.days_tested ∧
    0 ≤ stats.breach_pct ∧ stats.breach_pct ≤ 100 ∧
    (0 < stats.days_tested →
      stats.breach_pct =
        round2 (100 * (stats.breaches : ℚ) / (stats.days_tested : ℚ))) ∧
    (stats.days_tested = 0 → stats.breach_pct = 0) ∧
    stats.expected_breach_pct = 100 * alpha := by
  obtain ⟨-, h2, h3, h4, h5⟩ := backtest_ok_elim h
  refine ⟨h2, h3, ?_, ?_, ?_, ?_, ?_, h5⟩
  · rw [h2, h3]
    exact List.length_filter_le _ _
  · rw [h4]
    apply round2_nonneg
    split_ifs with hlen
    · positivity
    · exact le_refl 0
  · rw [h4]
    apply round2_le_100
    split_ifs with hlen
    · have hble : (((recs.filter fun r => r.is_breach).length : ℚ)) ≤
          (recs.length : ℚ) := Nat.cast_le.mpr (List.length_filter_le _ _)
      have hpos : (0 : ℚ) < (recs.length : ℚ) := by
        exact_mod_cast Nat.pos_of_ne_zero hlen
      rw [div_le_iff₀ hpos]
      linarith
    · norm_num
  · intro hpos
    have hne : recs.length ≠ 0 := by
      rw [h2] at hpos
      omega
    rw [h4, if_pos hne, h2, h3]
  · intro hz
    have hzero : recs.length = 0 := by
      rw [h2] at hz
      exact hz
    rw [h4, if_neg (by omega), round2_zero]

/-- C3 witness: the theorem applied to the three-day example at
`window = 3`, `alpha = 0.05`. -/
theorem C3_summary_consistency_witness :
    (⟨1, 0, 0, 5⟩ : Stats).days_tested =
      [(⟨2, 1 / 200, -(7 / 400), false⟩ : OutRecord)].length ∧
    (⟨1, 0, 0, 5⟩ : Stats).breaches =
      ([(⟨2, 1 / 200, -(7 / 400), false⟩ : OutRecord)].filter
        fun r => r.is_breach).length ∧
    (⟨1, 0, 0, 5⟩ : Stats).breaches ≤ (⟨1, 0, 0, 5⟩ : Stats).days_tested ∧
    0 ≤ (⟨1, 0, 0, 5⟩ : Stats).breach_pct ∧
    (⟨1, 0, 0, 5⟩ : Stats).breach_pct ≤ 100 ∧
    (0 < (⟨1, 0, 0, 5⟩ : Stats).days_tested →
      (⟨1, 0, 0, 5⟩ : Stats).breach_pct =
        round2 (100 * ((⟨1, 0, 0, 5⟩ : Stats).breaches : ℚ) /
          ((⟨1, 0, 0, 5⟩ : Stats).days_tested : ℚ))) ∧
    ((⟨1, 0, 0, 5⟩ : Stats).days_tested = 0 →
      (⟨1, 0, 0, 5⟩ : Stats).breach_pct = 0) ∧
    (⟨1, 0, 0, 5⟩ : Stats).expected_breach_pct = 100 * (1 / 20 : ℚ) :=
  C3_summary_consistency rows3 3 (1 / 20) _ _ backtest_rows3_w3

/-- C4: with `window ≥ 1`, the rolling threshold at position `i` is undefined
exactly when `i < window - 1`; the records with undefined threshold are
dropped before the output sequence and the summary, so the output has one
record per full-window position and `days_tested` counts only those. -/
theorem C4_undefined_prefix_dropped (w : Nat) (alpha : ℚ) (xs : List ℚ)
    (hw : 1 ≤ w) :
    (∀ i, i < xs.length →
      ((rollingQuantile w alpha xs).getD i none = none ↔ i < w - 1)) ∧
    ∀ (rows : List Row) (recs : List OutRecord) (stats : Stats),
      backtest rows w alpha = Except.ok (recs, stats) →
      recs.length = (validPairs rows).length - (w - 1) ∧
      stats.days_tested = recs.length := by
  constructor
  · intro i hi
    unfold rollingQuantile
    rw [List.getD_eq_getElem _ none (by simpa using hi), List.getElem_map,
      List.getElem_range]
    by_cases hcond : 1 ≤ w ∧ w ≤ i + 1
    · rw [if_pos hcond]
      have hni : ¬ (i < w - 1) := by omega
      simpa using hni
    · rw [if_neg hcond]
      have hyi : i < w - 1 := by omega
      simpa using hyi
  · intro rows recs stats h
    obtain ⟨h1, h2, -, -, -⟩ := backtest_ok_elim h
    refine ⟨?_, h2⟩
    rw [h1, backtestRecs_eq_closed _ _ _ hw]
    unfold recsClosed
    rw [List.length_map, List.length_range]
    congr 1
    unfold sortByDate
    exact (List.perm_insertionSort _ _).length_eq

/-- C4 witness: the theorem applied to the three-day example at
`window = 3`, `alpha = 0.05` (position 0 and the concrete backtest run). -/
theorem C4_undefined_prefix_dropped_witness :
    ((rollingQuantile 3 (1 / 20) [1 / 100, -1 / 50, 1 / 200]).getD 0 none =
        none ↔ (0 : Nat) < 3 - 1) ∧
    ([(⟨2, 1 / 200, -(7 / 400), false⟩ : OutRecord)].length =
        (validPairs rows3).length - (3 - 1) ∧
      (⟨1, 0, 0, 5⟩ : Stats).days_tested =
        [(⟨2, 1 / 200, -(7 / 400), false⟩ : OutRecord)].length) :=
  ⟨(C4_undefined_prefix_dropped 3 (1 / 20) [1 / 100, -1 / 50, 1 / 200]
      (by norm_num)).1 0 (by norm_num),
   (C4_undefined_prefix_dropped 3 (1 / 20) [1 / 100, -1 / 50, 1 / 200]
      (by norm_num)).2 rows3 _ _ backtest_rows3_w3⟩

theorem quantileLinear_singleton (alpha x : ℚ) :
    quantileLinear alpha [x] = x := by
  norm_num [quantileLinear, List.insertionSort, List.orderedInsert,
    ratFloor_eq, qceil_eq]

theorem sortByDate_length (l : List (Int × ℚ)) :
    (sortByDate l).length = l.length := by
  unfold sortByDate
  exact (List.perm_insertionSort _ _).length_eq

theorem validPairs_dropna (rows : List Row) :
    validPairs (dropna rows) = validPairs rows := by
  induction rows with
  | nil => rfl
  | cons r rows ih =>
      cases ht : r.trade_date <;> cases hd : r.daily_return <;>
        simp [dropna, validPairs, List.filter_cons, List.filterMap_cons, ht, hd] at ih ⊢ <;>
        exact ih

/-- C5 counterexample: `alpha = 0` lies outside the open interval `(0, 1)`,
yet on a three-day input with `window = 3` the operation does not fail: it
silently returns a record (the rolling quantile at probability 0 is the
window minimum) and a summary, refuting the fail-fast claim for `alpha = 0`. -/
theorem C5_counterexample_alpha_zero :
    ((0 : ℚ) < 1 ∧ ¬ ((0 : ℚ) < 0)) ∧
    backtest rows3 3 0 =
      Except.ok ([⟨2, 1 / 200, -(1 / 50), false⟩], ⟨1, 0, 0, 0⟩) :=
  ⟨⟨by norm_num, by norm_num⟩, backtest_rows3_alpha0⟩

/-- C5 (amended): the code validates only that the quantile probability lies
in the closed interval `[0, 1]`: for `alpha < 0` or `alpha > 1` the rolling
quantile raises (fail fast), while `alpha = 0`, `alpha = 1` and `window = 0`
are accepted and silently produce a result. -/
theorem C5_amended_validation (rows : List Row) (w : Nat) (alpha : ℚ) :
    ((alpha < 0 ∨ 1 < alpha) →
      backtest rows w alpha = Except.error "quantile value not in [0, 1]") ∧
    (0 ≤ alpha → alpha ≤ 1 → (backtest rows w alpha).toOption.isSome = true) := by
  constructor
  · intro hα
    rw [backtest, if_pos hα]
  · intro h0 h1
    exact backtest_ok_of_valid rows w alpha h0 h1

/-- C5 amended-claim witness: `alpha = 2` fails, while `alpha = 1/2` with
`window = 0` succeeds. -/
theorem C5_amended_validation_witness :
    backtest [] 0 2 = Except.error "quantile value not in [0, 1]" ∧
    (backtest rows3 0 (1 / 2)).toOption.isSome = true :=
  ⟨(C5_amended_validation [] 0 2).1 (by norm_num),
   (C5_amended_validation rows3 0 (1 / 2)).2 (by norm_num) (by norm_num)⟩

/-- C6: with valid parameters, an input holding fewer than `window`
non-missing observations (the empty input included) does not fail: the record
sequence is empty and the summary is
`{days_tested := 0, breaches := 0, breach_pct := 0, expected_breach_pct := 100 * alpha}`. -/
theorem C6_short_input_degenerate (rows : List Row) (w : Nat) (alpha : ℚ)
    (h0 : 0 ≤ alpha) (h1 : alpha ≤ 1)
    (hshort : (validPairs rows).length < w) :
    backtest rows w alpha = Except.ok ([], ⟨0, 0, 0, 100 * alpha⟩) := by
  have hα : ¬ (alpha < 0 ∨ 1 < alpha) := by
    rintro (hh | hh) <;> linarith
  have hw : 1 ≤ w := by omega
  have hrecs : backtestRecs (sortByDate (validPairs rows)) w alpha = [] := by
    rw [backtestRecs_eq_closed _ _ _ hw]
    unfold recsClosed
    have hz : (sortByDate (validPairs rows)).length - (w - 1) = 0 := by
      rw [sortByDate_length]
      omega
    rw [hz]
    rfl
  simp [backtest, hα, hrecs, round2_zero]

/-- C6 witness: two observations with `window = 3` give the degenerate
summary. -/
theorem C6_short_input_degenerate_witness :
    backtest [⟨some 0, some (1 / 100)⟩, ⟨some 1, some (-1 / 50)⟩] 3 (1 / 20) =
      Except.ok ([], ⟨0, 0, 0, 5⟩) := by
  rw [C6_short_input_degenerate
    [⟨some 0, some (1 / 100)⟩, ⟨some 1, some (-1 / 50)⟩] 3 (1 / 20)
    (by norm_num) (by norm_num)
    (by norm_num [validPairs, List.filterMap_cons])]
  norm_num

/-- C7: on an input whose valid rows are sorted strictly ascending by date,
the output record dates are exactly the input dates at the positions with a
defined threshold, in the same relative order (the tail from position
`window - 1` on), never reordered. -/
theorem C7_order_preservation (rows : List Row) (w : Nat) (alpha : ℚ)
    (recs : List OutRecord) (stats : Stats) (hw : 1 ≤ w)
    (hsorted : List.Pairwise (fun a b => a.1 < b.1) (validPairs rows))
    (h : backtest rows w alpha = Except.ok (recs, stats)) :
    recs.map (fun r => r.trade_date) =
      ((validPairs rows).map Prod.fst).drop (w - 1) := by
  obtain ⟨h1, -, -, -, -⟩ := backtest_ok_elim h
  have hsort_eq : sortByDate (validPairs rows) = validPairs rows := by
    unfold sortByDate
    exact List.Sorted.insertionSort_eq (hsorted.imp le_of_lt)
  subst h1
  rw [hsort_eq, backtestRecs_eq_closed _ _ _ hw]
  apply List.ext_getElem
  · simp [recsClosed]
  · intro j hj1 hj2
    have hjlt : j < (validPairs rows).length - (w - 1) := by
      simpa [recsClosed] using hj1
    have hjk : j + (w - 1) < (validPairs rows).length := by omega
    simp only [recsClosed, List.getElem_map, List.getElem_range,
      List.getElem_drop]
    unfold recAt
    have hkj : w - 1 + j < (validPairs rows).length := by omega
    rw [← List.getD_eq_getElem _ ((0 : Int), (0 : ℚ)) hkj]
    rw [Nat.add_comm (w - 1) j]

/-- C7 witness: the theorem applied to the three-day example. -/
theorem C7_order_preservation_witness :
    [(⟨2, 1 / 200, -(7 / 400), false⟩ : OutRecord)].map
        (fun r => r.trade_date) =
      ((validPairs rows3).map Prod.fst).drop (3 - 1) :=
  C7_order_preservation rows3 3 (1 / 20) _ _ (by norm_num)
    (by decide) backtest_rows3_w3

/-- C8: the backtest is deterministic: two runs on identical input yield
identical results (the computation is a pure function with no randomness). -/
theorem C8_determinism (rows : List Row) (w : Nat) (alpha : ℚ) :
    backtest rows w alpha = backtest rows w alpha ∧
    plot_var_breaches rows = plot_var_breaches rows :=
  ⟨rfl, rfl⟩

/-- C9: with `window = 1` each threshold is the quantile of a single-value
window, which is that value itself, so no return is strictly below its own
threshold: every record has `is_breach = false` and the summary reports zero
breaches. -/
theorem C9_window_one_no_breach (rows : List Row) (alpha : ℚ)
    (recs : List OutRecord) (stats : Stats)
    (h : backtest rows 1 alpha = Except.ok (recs, stats)) :
    (∀ r ∈ recs, r.var_threshold = r.daily_return ∧ r.is_breach = false) ∧
    stats.breaches = 0 ∧ stats.breach_pct = 0 := by
  obtain ⟨h1, h2, h3, h4, -⟩ := backtest_ok_elim h
  have hmem : ∀ r ∈ recs, r.var_threshold = r.daily_return ∧
      r.is_breach = false := by
    intro r hr
    rw [h1, backtestRecs_eq_closed _ _ _ (by omega)] at hr
    unfold recsClosed at hr
    rw [List.mem_map] at hr
    obtain ⟨j, hj, hrec⟩ := hr
    rw [List.mem_range] at hj
    have hjd : j < (sortByDate (validPairs rows)).length := by omega
    have hslice : windowSlice ((sortByDate (validPairs rows)).map Prod.snd) 1 j =
        [((sortByDate (validPairs rows)).map Prod.snd).getD j 0] := by
      have hdrop : ((sortByDate (validPairs rows)).map Prod.snd).drop j =
          ((sortByDate (validPairs rows)).map Prod.snd).getD j 0 ::
            ((sortByDate (validPairs rows)).map Prod.snd).drop (j + 1) := by
        rw [List.getD_eq_getElem _ 0 (by simpa using hjd)]
        exact List.drop_eq_getElem_cons _
      have h11 : j + 1 - 1 = j := by omega
      have h1j : j + 1 - j = 1 := by omega
      unfold windowSlice
      rw [h11, List.drop_take, h1j, hdrop]
      simp
    have hsnd : ((sortByDate (validPairs rows)).map Prod.snd).getD j 0 =
        ((sortByDate (validPairs rows)).getD j (0, 0)).2 := by
      rw [List.getD_eq_getElem _ 0 (by simpa using hjd),
        List.getElem_map, List.getD_eq_getElem _ (0, 0) hjd]
    rw [← hrec]
    unfold recAt
    rw [Nat.add_zero j] at *
    constructor
    · show quantileLinear alpha (windowSlice _ 1 j) = _
      rw [hslice, quantileLinear_singleton, hsnd]
    · show decide _ = false
      rw [hslice, quantileLinear_singleton, hsnd]
      simp [lt_irrefl]
  have hfilter : (recs.filter fun r => r.is_breach) = [] := by
    rw [List.filter_eq_nil_iff]
    intro r hr
    simp [(hmem r hr).2]
  refine ⟨hmem, ?_, ?_⟩
  · rw [h3, hfilter]
    rfl
  · rw [h4, hfilter]
    rcases Nat.eq_zero_or_pos recs.length with hz | hp
    · rw [if_neg (by omega)]
      exact round2_zero
    · rw [if_pos (by omega)]
      norm_num [round2_zero]

/-- C9 witness: the theorem applied to the three-day example with
`window = 1`, instantiated at the first output record. -/
theorem C9_window_one_no_breach_witness :
    ((⟨0, 1 / 100, 1 / 100, false⟩ : OutRecord).var_threshold =
        (⟨0, 1 / 100, 1 / 100, false⟩ : OutRecord).daily_return ∧
      (⟨0, 1 / 100, 1 / 100, false⟩ : OutRecord).is_breach = false) ∧
    (⟨3, 0, 0, 5⟩ : Stats).breaches = 0 ∧
    (⟨3, 0, 0, 5⟩ : Stats).breach_pct = 0 :=
  have h := C9_window_one_no_breach rows3 (1 / 20) _ _ backtest_rows3_w1
  ⟨h.1 ⟨0, 1 / 100, 1 / 100, false⟩ (by simp), h.2.1, h.2.2⟩

/-- C10: rows with a missing date or return are removed before the rolling
window is formed, and the window slides over the filtered gap-free sequence:
the backtest on any input equals the backtest on that input with the
missing-value rows deleted, with no pre-filtering required of the caller. -/
theorem C10_missing_rows_dropped (rows : List Row) (w : Nat) (alpha : ℚ) :
    backtest rows w alpha = backtest (dropna rows) w alpha := by
  unfold backtest
  rw [validPairs_dropna]

